import Mathlib

/-!
Verification of the `programista-magazyn` scraper (src/prog.ts).

The development shallowly embeds the program's components:

* the bounded-concurrency download scheduler
  (`ProgrammerMagazineScraper.startNext` and the completion handler built by
  `scraperFactory`) as a small-step state machine `SchedState` with an
  atomic dispatch step `startNext` and a per-task completion event
  `completeTask`;
* link extraction (`ProgrammerMagazineScraper.getLinks`) over an abstract
  document structure, together with models of the Node library helpers it
  calls (`url.parse`, `path.extname`, `path.basename`, `decodeURI`);
* the enrollment loop of `ProgrammerMagazineScraper.scrape` (existing-file
  skip) with the filesystem existence probe as a Boolean oracle;
* the Slack notifier `uploadNewMagazines` with the per-file upload outcome
  as a Boolean oracle.

Scheduling model: single-threaded cooperative concurrency.  A task's
asynchronous action suspends at its first await (the network fetch), so
launching it inside `startNext` performs no bookkeeping; the `finally`
block of the action (decrement running, increment completed, re-enter
`startNext`) runs later, as its own atomic event, modelled by
`completeTask`.  A run is the initial `startNext` pass followed by an
arbitrary interleaving of completion events, captured by `Reachable`.
-/

namespace ProgMag

/-- One entry of `requestsList` in src/prog.ts: the mutable `started` flag
together with the data the completion event needs (whether the action will
succeed, and the destination path it would push onto `newMagazines`).
The ghost counters `invocations` and `completions` count how many times the
task's action was launched and how many times its completion handler ran. -/
structure DownloadTask where
  started : Bool
  completed : Bool
  succeeded : Bool
  path : String
  invocations : Nat
  completions : Nat
deriving Repr, DecidableEq

/-- Result of the scan loop of `startNext`: the updated task list, the
updated `runningRequests` counter, and whether the loop exited through the
early `return` (cap reached), which skips the completion check. -/
structure ScanResult where
  tasks : List DownloadTask
  running : Nat
  early : Bool
deriving Repr, DecidableEq

/-- Marking a task started and launching its action: `req.started = true;
req.scrape();` — the action suspends at the fetch, so only the flag (and
the ghost invocation counter) changes here. -/
def startTask (t : DownloadTask) : DownloadTask :=
  { t with started := true, invocations := t.invocations + 1 }

/-- The `for (const req of this.requestsList)` loop of `startNext`
(src/prog.ts lines 160-172): walk the list in order; if
`runningRequests >= maxRequests`, return early; skip started tasks;
otherwise mark started, launch, and increment `runningRequests`. -/
def scanTasks (maxR : Nat) : List DownloadTask → Nat → ScanResult
  | [], r => ⟨[], r, false⟩
  | t :: ts, r =>
    if maxR ≤ r then ⟨t :: ts, r, true⟩
    else if t.started then
      let res := scanTasks maxR ts r
      ⟨t :: res.tasks, res.running, res.early⟩
    else
      let res := scanTasks maxR ts (r + 1)
      ⟨startTask t :: res.tasks, res.running, res.early⟩

/-- The scheduler state of `ProgrammerMagazineScraper` during one run:
counters, the request list, the success list `newMagazines`, and a ghost
counter `doneSignals` of how many times `allRequestsCompleted` was
invoked (resolving the promise returned by `scrape`). -/
structure SchedState where
  maxRequests : Nat
  runningRequests : Nat
  completedRequests : Nat
  tasks : List DownloadTask
  newMagazines : List String
  doneSignals : Nat
deriving Repr, DecidableEq

/-- `startNext` (src/prog.ts lines 159-177): run the scan loop; if it did
not return early, fire `allRequestsCompleted` when
`completedRequests >= requestsList.length`. -/
def startNext (s : SchedState) : SchedState :=
  let res := scanTasks s.maxRequests s.tasks s.runningRequests
  let s1 := { s with tasks := res.tasks, runningRequests := res.running }
  if res.early then s1
  else if s1.tasks.length ≤ s1.completedRequests then
    { s1 with doneSignals := s1.doneSignals + 1 }
  else s1

/-- Completion event of task `i`: the tail of the async closure built by
`scraperFactory` (src/prog.ts lines 179-202).  On success the destination
path is pushed onto `newMagazines`; a thrown error is caught and only
logged; the `finally` block decrements `runningRequests`, increments
`completedRequests`, and re-enters `startNext`. -/
def completeTask (s : SchedState) (i : Nat) : SchedState :=
  match s.tasks[i]? with
  | none => s
  | some t =>
    let s1 : SchedState :=
      { s with
        tasks := s.tasks.set i
          { t with completed := true, completions := t.completions + 1 },
        newMagazines :=
          if t.succeeded then s.newMagazines ++ [t.path] else s.newMagazines,
        runningRequests := s.runningRequests - 1,
        completedRequests := s.completedRequests + 1 }
    startNext s1

/-- A completion event is possible exactly for a task that has been
launched and has not yet completed. -/
def validStep (s : SchedState) (i : Nat) : Bool :=
  match s.tasks[i]? with
  | none => false
  | some t => t.started && !t.completed

/-- The data of one enrolled task before the run starts: the (future)
outcome of its action and the destination path it would report. -/
structure TaskSpec where
  succeeded : Bool
  path : String
deriving Repr, DecidableEq

/-- A freshly enrolled task: `started: false`, not completed, ghost
counters zero. -/
def initTask (sp : TaskSpec) : DownloadTask :=
  ⟨false, false, sp.succeeded, sp.path, 0, 0⟩

/-- Scheduler state right after `scrapeInit` and the enrollment loop of
`scrape` pushed every task (src/prog.ts lines 119-144), before the initial
`startNext` call. -/
def initState (maxR : Nat) (specs : List TaskSpec) : SchedState :=
  { maxRequests := maxR
    runningRequests := 0
    completedRequests := 0
    tasks := specs.map initTask
    newMagazines := []
    doneSignals := 0 }

/-- State after the initial dispatch `this.startNext()` in `scrape`
(src/prog.ts line 145). -/
def runStart (maxR : Nat) (specs : List TaskSpec) : SchedState :=
  startNext (initState maxR specs)

/-- States reachable during a run: the initial dispatch followed by any
interleaving of completion events of in-flight tasks. -/
inductive Reachable (maxR : Nat) (specs : List TaskSpec) : SchedState → Prop
  | start : Reachable maxR specs (runStart maxR specs)
  | step {s : SchedState} {i : Nat} : Reachable maxR specs s →
      validStep s i = true → Reachable maxR specs (completeTask s i)

/-- Number of in-flight tasks: started and not yet completed. -/
def countInflight (ts : List DownloadTask) : Nat :=
  (ts.filter fun t => t.started && !t.completed).length

/-- Number of completed tasks. -/
def countCompleted (ts : List DownloadTask) : Nat :=
  (ts.filter fun t => t.completed).length

/-- Number of tasks that completed successfully. -/
def countSucceeded (ts : List DownloadTask) : Nat :=
  (ts.filter fun t => t.completed && t.succeeded).length

/-! ### List helper lemmas -/

/-- Counting a predicate over `List.set`: replacing the element at a valid
index trades its contribution for the new element's contribution. -/
theorem length_filter_set {α : Type} (p : α → Bool) (ts : List α) (i : Nat)
    (t tnew : α) (h : ts[i]? = some t) :
    ((ts.set i tnew).filter p).length + (if p t then 1 else 0)
      = (ts.filter p).length + (if p tnew then 1 else 0) := by
  induction ts generalizing i with
  | nil => simp at h
  | cons u us ih =>
    cases i with
    | zero =>
      simp only [List.getElem?_cons_zero, Option.some.injEq] at h
      subst h
      simp only [List.set_cons_zero, List.filter_cons]
      split <;> split <;> (try simp only [List.length_cons]) <;> omega
    | succ j =>
      simp only [List.getElem?_cons_succ] at h
      have hrec := ih j h
      simp only [List.set_cons_succ, List.filter_cons]
      split <;> (try simp only [List.length_cons]) <;> omega

/-- An element different from the one being overwritten survives
`List.set`. -/
theorem mem_set_of_ne {α : Type} (ts : List α) (i : Nat) (t tnew u : α)
    (h : ts[i]? = some t) (hu : u ∈ ts) (hne : u ≠ t) : u ∈ ts.set i tnew := by
  induction ts generalizing i with
  | nil => simp at hu
  | cons v vs ih =>
    cases i with
    | zero =>
      simp only [List.getElem?_cons_zero, Option.some.injEq] at h
      subst h
      rcases List.mem_cons.mp hu with rfl | hmem
      · exact absurd rfl hne
      · exact List.mem_cons_of_mem _ hmem
    | succ j =>
      simp only [List.getElem?_cons_succ] at h
      rcases List.mem_cons.mp hu with rfl | hmem
      · exact List.mem_cons_self _ _
      · exact List.mem_cons_of_mem _ (ih j h hmem)

/-! ### Properties of the scan loop -/

theorem scanTasks_length (maxR : Nat) (ts : List DownloadTask) (r : Nat) :
    (scanTasks maxR ts r).tasks.length = ts.length := by
  induction ts generalizing r with
  | nil => simp [scanTasks]
  | cons t ts ih =>
    by_cases hcap : maxR ≤ r
    · simp [scanTasks, hcap]
    · by_cases hst : t.started <;> simp [scanTasks, hcap, hst, ih]

/-- Every task in the scanned list is either an untouched member of the
input or a just-started, previously unstarted member. -/
theorem scanTasks_mem (maxR : Nat) (ts : List DownloadTask) (r : Nat) :
    ∀ u ∈ (scanTasks maxR ts r).tasks,
      u ∈ ts ∨ ∃ v ∈ ts, v.started = false ∧ u = startTask v := by
  induction ts generalizing r with
  | nil => simp [scanTasks]
  | cons t ts ih =>
    intro u hu
    by_cases hcap : maxR ≤ r
    · simp only [scanTasks, if_pos hcap] at hu
      exact Or.inl hu
    · by_cases hst : t.started
      · simp only [scanTasks, if_neg hcap, if_pos hst] at hu
        rcases List.mem_cons.mp hu with rfl | hmem
        · exact Or.inl (List.mem_cons_self _ _)
        · rcases ih r u hmem with h | ⟨v, hv, hvs, rfl⟩
          · exact Or.inl (List.mem_cons_of_mem _ h)
          · exact Or.inr ⟨v, List.mem_cons_of_mem _ hv, hvs, rfl⟩
      · simp only [scanTasks, if_neg hcap, if_neg hst] at hu
        rcases List.mem_cons.mp hu with rfl | hmem
        · exact Or.inr ⟨t, List.mem_cons_self _ _, Bool.not_eq_true _ ▸ by
            simpa using hst, rfl⟩
        · rcases ih (r + 1) u hmem with h | ⟨v, hv, hvs, rfl⟩
          · exact Or.inl (List.mem_cons_of_mem _ h)
          · exact Or.inr ⟨v, List.mem_cons_of_mem _ hv, hvs, rfl⟩

/-- Already-started tasks pass through the scan loop unchanged. -/
theorem scanTasks_mem_started (maxR : Nat) (ts : List DownloadTask) (r : Nat) :
    ∀ u ∈ ts, u.started = true → u ∈ (scanTasks maxR ts r).tasks := by
  induction ts generalizing r with
  | nil => simp
  | cons t ts ih =>
    intro u hu hus
    by_cases hcap : maxR ≤ r
    · simpa [scanTasks, hcap] using hu
    · rcases List.mem_cons.mp hu with rfl | hmem
      · simp [scanTasks, hcap, hus]
      · by_cases hst : t.started
        · simp only [scanTasks, if_neg hcap, if_pos hst]
          exact List.mem_cons_of_mem _ (ih r u hmem hus)
        · simp only [scanTasks, if_neg hcap, if_neg hst]
          exact List.mem_cons_of_mem _ (ih (r + 1) u hmem hus)

/-- The scan loop leaves any count invariant under `startTask`
unchanged (e.g. the number of completed or succeeded tasks). -/
theorem scanTasks_filter_eq (p : DownloadTask → Bool)
    (hp : ∀ t, p (startTask t) = p t) (maxR : Nat) (ts : List DownloadTask)
    (r : Nat) :
    ((scanTasks maxR ts r).tasks.filter p).length = (ts.filter p).length := by
  induction ts generalizing r with
  | nil => simp [scanTasks]
  | cons t ts ih =>
    by_cases hcap : maxR ≤ r
    · simp [scanTasks, hcap]
    · by_cases hst : t.started
      · simp only [scanTasks, if_neg hcap, if_pos hst, List.filter_cons]
        split <;> simp [ih]
      · simp only [scanTasks, if_neg hcap, if_neg hst, List.filter_cons, hp t]
        split <;> simp [ih]

/-- The scan loop never pushes `runningRequests` beyond the cap. -/
theorem scanTasks_running_le (maxR : Nat) (ts : List DownloadTask) (r : Nat)
    (h : r ≤ maxR) : (scanTasks maxR ts r).running ≤ maxR := by
  induction ts generalizing r with
  | nil => simpa [scanTasks]
  | cons t ts ih =>
    by_cases hcap : maxR ≤ r
    · simpa [scanTasks, hcap]
    · by_cases hst : t.started
      · simpa [scanTasks, hcap, hst] using ih r h
      · simpa [scanTasks, hcap, hst] using ih (r + 1) (by omega)

/-- Unfolding lemma: the in-flight count of a cons. -/
theorem countInflight_cons (t : DownloadTask) (ts : List DownloadTask) :
    countInflight (t :: ts)
      = (if t.started && !t.completed then 1 else 0) + countInflight ts := by
  simp only [countInflight, List.filter_cons]
  split <;> (try simp only [List.length_cons]) <;> omega

/-- The scan loop changes `runningRequests` by exactly the number of tasks
it launches: the balance `running - inflight` is preserved. -/
theorem scanTasks_inflight (maxR : Nat) (ts : List DownloadTask) (r : Nat)
    (h : ∀ t ∈ ts, t.completed = true → t.started = true) :
    (scanTasks maxR ts r).running + countInflight ts
      = r + countInflight (scanTasks maxR ts r).tasks := by
  induction ts generalizing r with
  | nil => simp [scanTasks]
  | cons t ts ih =>
    have hts : ∀ u ∈ ts, u.completed = true → u.started = true :=
      fun u hu => h u (List.mem_cons_of_mem _ hu)
    by_cases hcap : maxR ≤ r
    · simp [scanTasks, hcap]
    · by_cases hst : t.started
      · have hrec := ih r hts
        simp only [scanTasks, if_neg hcap, if_pos hst, countInflight_cons]
        omega
      · have hnc : t.completed = false := by
          rcases Bool.eq_false_or_eq_true t.completed with hc | hc
          · exact absurd (h t (List.mem_cons_self _ _) hc) hst
          · exact hc
        have hstf : t.started = false := by simpa using hst
        have hrec := ih (r + 1) hts
        simp [scanTasks, hcap, hst, countInflight_cons, startTask, hstf, hnc]
        omega

/-- With a cap of zero the scan loop starts nothing and changes nothing. -/
theorem scanTasks_zero (ts : List DownloadTask) (r : Nat) :
    (scanTasks 0 ts r).tasks = ts ∧ (scanTasks 0 ts r).running = r := by
  cases ts with
  | nil => simp [scanTasks]
  | cons t ts => simp [scanTasks]

/-- When every task has already been started and the running count is under
the cap, the scan loop is a no-op that reaches the completion check. -/
theorem scanTasks_all_started (maxR : Nat) (ts : List DownloadTask) (r : Nat)
    (h : ∀ t ∈ ts, t.started = true) (hr : r < maxR) :
    scanTasks maxR ts r = ⟨ts, r, false⟩ := by
  induction ts with
  | nil => simp [scanTasks]
  | cons t ts ih =>
    have hst : t.started = true := h t (List.mem_cons_self _ _)
    have hts := ih fun u hu => h u (List.mem_cons_of_mem _ hu)
    simp [scanTasks, hst, Nat.not_le.mpr hr, hts]

/-! ### The scheduler invariant -/

/-- Closed form of `startNext`: the scan loop updates the task list and the
running counter, and `allRequestsCompleted` fires exactly when the loop did
not exit early and `completedRequests` has reached the batch length. -/
theorem startNext_eq (s : SchedState) :
    startNext s =
      { s with
        tasks := (scanTasks s.maxRequests s.tasks s.runningRequests).tasks
        runningRequests :=
          (scanTasks s.maxRequests s.tasks s.runningRequests).running
        doneSignals :=
          if (scanTasks s.maxRequests s.tasks s.runningRequests).early = false
              ∧ (scanTasks s.maxRequests s.tasks s.runningRequests).tasks.length
                  ≤ s.completedRequests
          then s.doneSignals + 1 else s.doneSignals } := by
  unfold startNext
  by_cases he : (scanTasks s.maxRequests s.tasks s.runningRequests).early
  · simp [he]
  · by_cases hc : (scanTasks s.maxRequests s.tasks
        s.runningRequests).tasks.length ≤ s.completedRequests
    · simp [he, hc]
    · simp [he, hc]

/-- The master invariant of the scheduler: counter/flag correspondence, the
concurrency cap, at-most-once launch and completion (ghost counters), the
success list discipline, and the completion-signal discipline. -/
structure Inv (maxR : Nat) (s : SchedState) : Prop where
  maxEq : s.maxRequests = maxR
  runEq : s.runningRequests = countInflight s.tasks
  compEq : s.completedRequests = countCompleted s.tasks
  cap : countInflight s.tasks ≤ maxR
  invocCount : ∀ t ∈ s.tasks, t.invocations = if t.started then 1 else 0
  complCount : ∀ t ∈ s.tasks, t.completions = if t.completed then 1 else 0
  startedOfCompleted : ∀ t ∈ s.tasks, t.completed = true → t.started = true
  magLen : s.newMagazines.length = countSucceeded s.tasks
  magMem : ∀ p ∈ s.newMagazines, ∃ t ∈ s.tasks,
    t.completed = true ∧ t.succeeded = true ∧ t.path = p
  signals : s.doneSignals =
    if s.completedRequests = s.tasks.length ∧ (1 ≤ maxR ∨ s.tasks = [])
    then 1 else 0
  zeroCap : maxR = 0 → ∀ t ∈ s.tasks, t.started = false

theorem inv_runStart (maxR : Nat) (specs : List TaskSpec) :
    Inv maxR (runStart maxR specs) := by
  have hunst : ∀ t ∈ specs.map initTask, t.started = false := by
    intro t ht
    obtain ⟨sp, _, rfl⟩ := List.mem_map.mp ht
    rfl
  have huncomp : ∀ t ∈ specs.map initTask, t.completed = false := by
    intro t ht
    obtain ⟨sp, _, rfl⟩ := List.mem_map.mp ht
    rfl
  have hinvoc0 : ∀ t ∈ specs.map initTask, t.invocations = 0 := by
    intro t ht
    obtain ⟨sp, _, rfl⟩ := List.mem_map.mp ht
    rfl
  have hcompl0 : ∀ t ∈ specs.map initTask, t.completions = 0 := by
    intro t ht
    obtain ⟨sp, _, rfl⟩ := List.mem_map.mp ht
    rfl
  have hCI : countInflight (specs.map initTask) = 0 := by
    have : (specs.map initTask).filter (fun t => t.started && !t.completed)
        = [] := by
      apply List.filter_eq_nil_iff.mpr
      intro t ht
      simp [hunst t ht]
    simp [countInflight, this]
  have hCC : countCompleted (specs.map initTask) = 0 := by
    have : (specs.map initTask).filter (fun t => t.completed) = [] := by
      apply List.filter_eq_nil_iff.mpr
      intro t ht
      simp [huncomp t ht]
    simp [countCompleted, this]
  have hCS : countSucceeded (specs.map initTask) = 0 := by
    have : (specs.map initTask).filter (fun t => t.completed && t.succeeded)
        = [] := by
      apply List.filter_eq_nil_iff.mpr
      intro t ht
      simp [huncomp t ht]
    simp [countSucceeded, this]
  have hco : ∀ t ∈ specs.map initTask, t.completed = true → t.started = true :=
    fun t ht hc => absurd hc (by simp [huncomp t ht])
  unfold runStart
  rw [startNext_eq]
  simp only [initState]
  constructor
  case maxEq => rfl
  case runEq =>
    dsimp only
    have := scanTasks_inflight maxR (specs.map initTask) 0 hco
    simp only [hCI] at this
    omega
  case compEq =>
    dsimp only
    have := scanTasks_filter_eq (fun t => t.completed) (fun t => rfl)
      maxR (specs.map initTask) 0
    simp only [countCompleted] at hCC ⊢
    omega
  case cap =>
    dsimp only
    have h1 := scanTasks_running_le maxR (specs.map initTask) 0 (Nat.zero_le _)
    have h2 := scanTasks_inflight maxR (specs.map initTask) 0 hco
    simp only [hCI] at h2
    omega
  case invocCount =>
    dsimp only
    intro t ht
    rcases scanTasks_mem maxR (specs.map initTask) 0 t ht with hmem | ⟨v, hv, hvs, rfl⟩
    · simp [hunst t hmem, hinvoc0 t hmem]
    · simp [startTask, hinvoc0 v hv]
  case complCount =>
    dsimp only
    intro t ht
    rcases scanTasks_mem maxR (specs.map initTask) 0 t ht with hmem | ⟨v, hv, hvs, rfl⟩
    · simp [huncomp t hmem, hcompl0 t hmem]
    · simp [startTask, huncomp v hv, hcompl0 v hv]
  case startedOfCompleted =>
    dsimp only
    intro t ht hc
    rcases scanTasks_mem maxR (specs.map initTask) 0 t ht with hmem | ⟨v, hv, hvs, rfl⟩
    · exact absurd hc (by simp [huncomp t hmem])
    · rfl
  case magLen =>
    dsimp only
    have := scanTasks_filter_eq (fun t => t.completed && t.succeeded)
      (fun t => rfl) maxR (specs.map initTask) 0
    simp only [countSucceeded, List.length_nil] at hCS ⊢
    omega
  case magMem =>
    dsimp only
    intro p hp
    exact absurd hp (List.not_mem_nil p)
  case signals =>
    dsimp only
    cases specs with
    | nil => simp [scanTasks]
    | cons sp sps =>
      have hlen : (scanTasks maxR ((sp :: sps).map initTask) 0).tasks.length
          = ((sp :: sps).map initTask).length := scanTasks_length _ _ _
      have hpos : 0 < ((sp :: sps).map initTask).length := by simp
      have hnotfire : ¬ ((scanTasks maxR ((sp :: sps).map initTask) 0).early
            = false
          ∧ (scanTasks maxR ((sp :: sps).map initTask) 0).tasks.length ≤ 0) := by
        rintro ⟨-, hle⟩
        omega
      have hnotall : ¬ ((0 : Nat)
            = (scanTasks maxR ((sp :: sps).map initTask) 0).tasks.length
          ∧ (1 ≤ maxR
            ∨ (scanTasks maxR ((sp :: sps).map initTask) 0).tasks = [])) := by
        rintro ⟨heq, -⟩
        omega
      rw [if_neg hnotfire, if_neg hnotall]
  case zeroCap =>
    dsimp only
    intro h0
    subst h0
    rw [(scanTasks_zero (specs.map initTask) 0).1]
    exact hunst

/-- The master invariant is preserved by every completion event. -/
theorem inv_step (maxR : Nat) {s : SchedState} {i : Nat}
    (hInv : Inv maxR s) (hv : validStep s i = true) :
    Inv maxR (completeTask s i) := by
  cases hidx : s.tasks[i]? with
  | none => simp [validStep, hidx] at hv
  | some t =>
    simp only [validStep, hidx, Bool.and_eq_true, Bool.not_eq_true'] at hv
    obtain ⟨hst, hnc⟩ := hv
    have htmem : t ∈ s.tasks := List.getElem?_mem hidx
    have hilt : i < s.tasks.length := (List.getElem?_eq_some.mp hidx).1
    have hmax1 : 1 ≤ maxR := by
      rcases Nat.eq_zero_or_pos maxR with h0 | h1
      · exact absurd hst (by simp [hInv.zeroCap h0 t htmem])
      · exact h1
    -- abbreviations for the bookkeeping state built in the finally block
    set tC : DownloadTask :=
      { t with completed := true, completions := t.completions + 1 } with htC
    set ts1 : List DownloadTask := s.tasks.set i tC with hts1
    -- counting facts about the updated task list
    have hCC1 : countCompleted ts1 = countCompleted s.tasks + 1 := by
      have := length_filter_set (fun u => u.completed) s.tasks i t tC hidx
      rw [← hts1] at this
      simp only [countCompleted, hnc, htC] at this ⊢
      simp at this
      omega
    have hCI1 : countInflight ts1 + 1 = countInflight s.tasks := by
      have := length_filter_set (fun u => u.started && !u.completed)
        s.tasks i t tC hidx
      rw [← hts1] at this
      simp only [countInflight, htC, hst, hnc] at this ⊢
      simp at this
      omega
    have hCS1 : countSucceeded ts1
        = countSucceeded s.tasks + (if t.succeeded then 1 else 0) := by
      have := length_filter_set (fun u => u.completed && u.succeeded)
        s.tasks i t tC hidx
      rw [← hts1] at this
      simp only [countSucceeded, htC, hnc] at this ⊢
      simp at this
      omega
    have hts1len : ts1.length = s.tasks.length := by
      rw [hts1]
      exact List.length_set s.tasks i tC
    have hts1co : ∀ u ∈ ts1, u.completed = true → u.started = true := by
      intro u hu hc
      rw [hts1] at hu
      rcases List.mem_or_eq_of_mem_set hu with hmem | rfl
      · exact hInv.startedOfCompleted u hmem hc
      · exact hst
    have hr1 : s.runningRequests - 1 = countInflight ts1 := by
      have := hInv.runEq
      omega
    have hlt : countCompleted s.tasks < s.tasks.length := by
      have hle := List.length_filter_le (fun u => u.completed) s.tasks
      by_cases heq :
          (s.tasks.filter (fun u => u.completed)).length = s.tasks.length
      · have := List.filter_length_eq_length.mp heq t htmem
        simp only at this
        rw [this] at hnc
        cases hnc
      · simp only [countCompleted]
        omega
    have hsig0 : s.doneSignals = 0 := by
      rw [hInv.signals, if_neg]
      rintro ⟨hc, -⟩
      rw [hInv.compEq] at hc
      omega
    have hstep : completeTask s i = startNext
        { s with
          tasks := ts1
          newMagazines :=
            if t.succeeded then s.newMagazines ++ [t.path] else s.newMagazines
          runningRequests := s.runningRequests - 1
          completedRequests := s.completedRequests + 1 } := by
      rw [hts1, htC]
      simp only [completeTask, hidx]
    rw [hstep, startNext_eq]
    dsimp only
    rw [hInv.maxEq]
    have hresInfl := scanTasks_inflight maxR ts1 (s.runningRequests - 1) hts1co
    have hresLe : (scanTasks maxR ts1 (s.runningRequests - 1)).running
        ≤ maxR := by
      apply scanTasks_running_le
      have := hInv.cap
      have := hInv.runEq
      omega
    have hresLen := scanTasks_length maxR ts1 (s.runningRequests - 1)
    have hresCC := scanTasks_filter_eq (fun u => u.completed) (fun u => rfl)
      maxR ts1 (s.runningRequests - 1)
    have hresCS := scanTasks_filter_eq (fun u => u.completed && u.succeeded)
      (fun u => rfl) maxR ts1 (s.runningRequests - 1)
    constructor
    case maxEq => rfl
    case runEq =>
      dsimp only
      omega
    case compEq =>
      dsimp only
      have hce := hInv.compEq
      simp only [countCompleted] at hce hCC1 hresCC ⊢
      omega
    case cap =>
      dsimp only
      omega
    case invocCount =>
      dsimp only
      intro u hu
      rcases scanTasks_mem maxR ts1 (s.runningRequests - 1) u hu with
        hmem | ⟨v, hv, hvs, rfl⟩
      · rw [hts1] at hmem
        rcases List.mem_or_eq_of_mem_set hmem with hmem2 | rfl
        · exact hInv.invocCount u hmem2
        · rw [htC]
          dsimp only
          rw [hst, if_pos rfl]
          have := hInv.invocCount t htmem
          rw [hst, if_pos rfl] at this
          exact this
      · have hvmem : v ∈ s.tasks := by
          rw [hts1] at hv
          rcases List.mem_or_eq_of_mem_set hv with hmem2 | rfl
          · exact hmem2
          · rw [htC] at hvs
            dsimp only at hvs
            rw [hst] at hvs
            cases hvs
        have hv0 := hInv.invocCount v hvmem
        rw [hvs, if_neg (by simp)] at hv0
        simp [startTask, hv0]
    case complCount =>
      dsimp only
      intro u hu
      rcases scanTasks_mem maxR ts1 (s.runningRequests - 1) u hu with
        hmem | ⟨v, hv, hvs, rfl⟩
      · rw [hts1] at hmem
        rcases List.mem_or_eq_of_mem_set hmem with hmem2 | rfl
        · exact hInv.complCount u hmem2
        · rw [htC]
          dsimp only
          have := hInv.complCount t htmem
          rw [hnc, if_neg (by simp)] at this
          simp [this]
      · have hvmem : v ∈ s.tasks := by
          rw [hts1] at hv
          rcases List.mem_or_eq_of_mem_set hv with hmem2 | rfl
          · exact hmem2
          · rw [htC] at hvs
            dsimp only at hvs
            rw [hst] at hvs
            cases hvs
        have hv0 := hInv.complCount v hvmem
        simpa [startTask] using hv0
    case startedOfCompleted =>
      dsimp only
      intro u hu hc
      rcases scanTasks_mem maxR ts1 (s.runningRequests - 1) u hu with
        hmem | ⟨v, hv, hvs, rfl⟩
      · exact hts1co u hmem hc
      · rfl
    case magLen =>
      dsimp only
      have hml := hInv.magLen
      simp only [countSucceeded] at hml hCS1 hresCS ⊢
      by_cases hsucc : t.succeeded
      · rw [if_pos hsucc] at hCS1 ⊢
        rw [List.length_append]
        simp only [List.length_cons, List.length_nil]
        omega
      · rw [if_neg hsucc] at hCS1 ⊢
        omega
    case magMem =>
      dsimp only
      have hold : ∀ p ∈ s.newMagazines,
          ∃ u ∈ (scanTasks maxR ts1 (s.runningRequests - 1)).tasks,
            u.completed = true ∧ u.succeeded = true ∧ u.path = p := by
        intro p hp
        obtain ⟨u, hu, huc, hus, hup⟩ := hInv.magMem p hp
        have hune : u ≠ t := by
          rintro rfl
          rw [huc] at hnc
          cases hnc
        have hu1 : u ∈ ts1 := by
          rw [hts1]
          exact mem_set_of_ne s.tasks i t tC u hidx hu hune
        have hust : u.started = true := hInv.startedOfCompleted u hu huc
        exact ⟨u, scanTasks_mem_started maxR ts1 (s.runningRequests - 1)
          u hu1 hust, huc, hus, hup⟩
      intro p hp
      by_cases hsucc : t.succeeded
      · rw [if_pos hsucc] at hp
        rcases List.mem_append.mp hp with hp1 | hp2
        · exact hold p hp1
        · have hpt : p = t.path := by simpa using hp2
          have htC1 : tC ∈ ts1 := by
            rw [hts1]
            exact List.mem_set s.tasks i hilt tC
          have htCst : tC.started = true := by
            rw [htC]
            exact hst
          refine ⟨tC, scanTasks_mem_started maxR ts1 (s.runningRequests - 1)
            tC htC1 htCst, ?_, ?_, ?_⟩
          · rw [htC]
          · rw [htC]
            exact hsucc
          · rw [htC, hpt]
      · rw [if_neg hsucc] at hp
        exact hold p hp
    case signals =>
      dsimp only
      rw [hsig0]
      have hlen2 : (scanTasks maxR ts1 (s.runningRequests - 1)).tasks.length
          = s.tasks.length := hresLen.trans hts1len
      have hcc := hInv.compEq
      by_cases hfin : s.completedRequests + 1 = s.tasks.length
      · have hCCall : countCompleted ts1 = ts1.length := by
          have e1 : countCompleted ts1 = countCompleted s.tasks + 1 := hCC1
          have e2 : s.completedRequests = countCompleted s.tasks := hcc
          omega
        have hallc : ∀ u ∈ ts1, u.completed = true := by
          apply List.filter_length_eq_length.mp
          simpa only [countCompleted] using hCCall
        have hallst : ∀ u ∈ ts1, u.started = true :=
          fun u hu => hts1co u hu (hallc u hu)
        have hCI0 : countInflight ts1 = 0 := by
          have hnilf : ts1.filter (fun u => u.started && !u.completed) = [] :=
            List.filter_eq_nil_iff.mpr (fun u hu => by simp [hallc u hu])
          simp [countInflight, hnilf]
        have hrlt : s.runningRequests - 1 < maxR := by omega
        have hscan := scanTasks_all_started maxR ts1
          (s.runningRequests - 1) hallst hrlt
        rw [hscan]
        dsimp only
        have h1 : ts1.length ≤ s.completedRequests + 1 := by omega
        have h2 : s.completedRequests + 1 = ts1.length := by omega
        simp [h1, h2, hmax1]
      · rw [if_neg (by rintro ⟨-, hle⟩; omega),
          if_neg (by rintro ⟨hc, -⟩; omega)]
    case zeroCap =>
      intro h0
      exact absurd h0 (by omega)

/-- Every state reachable during a run satisfies the master invariant. -/
theorem inv_reachable (maxR : Nat) (specs : List TaskSpec) {s : SchedState}
    (h : Reachable maxR specs s) : Inv maxR s := by
  induction h with
  | start => exact inv_runStart maxR specs
  | step hr hv ih => exact inv_step maxR ih hv

/-! ### Scheduler claims -/

/-- C1 (concurrency cap): at every instant during a run, the number of
tasks whose `started` flag is true and that have not yet completed never
exceeds the configured cap `maxRequests`, and it always agrees with the
`runningRequests` counter that `startNext` checks before admitting a new
task. -/
theorem concurrency_cap (maxR : Nat) (specs : List TaskSpec)
    (s : SchedState) (h : Reachable maxR specs s) :
    countInflight s.tasks ≤ maxR
    ∧ s.runningRequests = countInflight s.tasks := by
  have hI := inv_reachable maxR specs h
  exact ⟨hI.cap, hI.runEq⟩

theorem concurrency_cap_witness :
    countInflight (runStart 2 [⟨true, "a"⟩, ⟨true, "b"⟩, ⟨false, "c"⟩]).tasks
        ≤ 2
    ∧ (runStart 2 [⟨true, "a"⟩, ⟨true, "b"⟩, ⟨false, "c"⟩]).runningRequests
        = countInflight
          (runStart 2 [⟨true, "a"⟩, ⟨true, "b"⟩, ⟨false, "c"⟩]).tasks :=
  concurrency_cap 2 [⟨true, "a"⟩, ⟨true, "b"⟩, ⟨false, "c"⟩] _ Reachable.start

/-- With a zero cap no task ever starts, so a batch in which every task
has completed can only be the empty batch. -/
theorem tasks_nil_of_zero_cap {maxR : Nat} {s : SchedState} (hI : Inv maxR s)
    (h0 : maxR = 0) (hceq : s.completedRequests = s.tasks.length) :
    s.tasks = [] := by
  by_contra hne
  have hlen : 0 < s.tasks.length := List.length_pos.mpr hne
  rw [hI.compEq] at hceq
  have hall : ∀ u ∈ s.tasks, u.completed = true := by
    intro u hu
    simpa using List.filter_length_eq_length.mp
      (by simpa only [countCompleted] using hceq) u hu
  obtain ⟨u, hu⟩ := List.exists_mem_of_length_pos hlen
  have hust := hI.startedOfCompleted u hu (hall u hu)
  rw [hI.zeroCap h0 u hu] at hust
  cases hust

/-- C2 (completion coverage): the promise returned by `scrape` resolves
(the completion signal has fired) exactly when `completedRequests` has
reached the batch length, which happens exactly when every enrolled task
has completed; and no task completes more than once. -/
theorem completion_coverage (maxR : Nat) (specs : List TaskSpec)
    (s : SchedState) (h : Reachable maxR specs s) :
    (1 ≤ s.doneSignals ↔ s.completedRequests = s.tasks.length)
    ∧ (s.completedRequests = s.tasks.length
        ↔ ∀ t ∈ s.tasks, t.completed = true)
    ∧ (∀ t ∈ s.tasks, t.completions ≤ 1) := by
  have hI := inv_reachable maxR specs h
  refine ⟨?_, ?_, ?_⟩
  · rw [hI.signals]
    constructor
    · intro h1
      by_cases hc : s.completedRequests = s.tasks.length
          ∧ (1 ≤ maxR ∨ s.tasks = [])
      · exact hc.1
      · rw [if_neg hc] at h1
        omega
    · intro hceq
      rcases Nat.eq_zero_or_pos maxR with h0 | h1
      · rw [if_pos ⟨hceq, Or.inr (tasks_nil_of_zero_cap hI h0 hceq)⟩]
      · rw [if_pos ⟨hceq, Or.inl h1⟩]
  · rw [hI.compEq]
    constructor
    · intro hceq
      intro u hu
      have hall := List.filter_length_eq_length.mp
        (by simpa only [countCompleted] using hceq) u hu
      simpa using hall
    · intro hall
      have hself : s.tasks.filter (fun u => u.completed) = s.tasks :=
        List.filter_eq_self.mpr (fun u hu => by simp [hall u hu])
      simp [countCompleted, hself]
  · intro u hu
    have := hI.complCount u hu
    rw [this]
    split <;> omega

theorem completion_coverage_witness :
    (1 ≤ (completeTask (runStart 1 [⟨true, "a"⟩]) 0).doneSignals
      ↔ (completeTask (runStart 1 [⟨true, "a"⟩]) 0).completedRequests
          = (completeTask (runStart 1 [⟨true, "a"⟩]) 0).tasks.length)
    ∧ ((completeTask (runStart 1 [⟨true, "a"⟩]) 0).completedRequests
          = (completeTask (runStart 1 [⟨true, "a"⟩]) 0).tasks.length
        ↔ ∀ t ∈ (completeTask (runStart 1 [⟨true, "a"⟩]) 0).tasks,
            t.completed = true)
    ∧ (∀ t ∈ (completeTask (runStart 1 [⟨true, "a"⟩]) 0).tasks,
        t.completions ≤ 1) :=
  completion_coverage 1 [⟨true, "a"⟩] _
    (Reachable.step Reachable.start (by decide))

/-- C3 (no double-dispatch): across a run a task's action is launched at
most once and its completion handler runs at most once; a completed task
was started; and once a task is completed it was launched and completed
exactly once. -/
theorem no_double_dispatch (maxR : Nat) (specs : List TaskSpec)
    (s : SchedState) (h : Reachable maxR specs s) :
    ∀ t ∈ s.tasks, t.invocations ≤ 1 ∧ t.completions ≤ 1
      ∧ (t.completed = true → t.started = true)
      ∧ (t.completed = true → t.invocations = 1 ∧ t.completions = 1) := by
  intro t ht
  have hI := inv_reachable maxR specs h
  have h1 := hI.invocCount t ht
  have h2 := hI.complCount t ht
  refine ⟨?_, ?_, hI.startedOfCompleted t ht, ?_⟩
  · rw [h1]
    split <;> omega
  · rw [h2]
    split <;> omega
  · intro hc
    rw [h1, h2, if_pos (hI.startedOfCompleted t ht hc), if_pos hc]
    exact ⟨rfl, rfl⟩

theorem no_double_dispatch_witness :
    (DownloadTask.mk true true false "b" 1 1).invocations ≤ 1
    ∧ (DownloadTask.mk true true false "b" 1 1).completions ≤ 1
    ∧ ((DownloadTask.mk true true false "b" 1 1).completed = true →
        (DownloadTask.mk true true false "b" 1 1).started = true)
    ∧ ((DownloadTask.mk true true false "b" 1 1).completed = true →
        (DownloadTask.mk true true false "b" 1 1).invocations = 1
        ∧ (DownloadTask.mk true true false "b" 1 1).completions = 1) :=
  no_double_dispatch 2 [⟨true, "a"⟩, ⟨false, "b"⟩]
    (completeTask (runStart 2 [⟨true, "a"⟩, ⟨false, "b"⟩]) 1)
    (Reachable.step Reachable.start (by decide))
    (DownloadTask.mk true true false "b" 1 1) (by decide)

/-- C4 (failure containment): the success list only ever holds paths of
tasks that completed successfully, its length is exactly the number of
successful completions (a failed task contributes nothing, yet still
counts as completed), the completion signal fires at most once, and once
every task has completed it has fired exactly once. -/
theorem failure_containment (maxR : Nat) (specs : List TaskSpec)
    (s : SchedState) (h : Reachable maxR specs s) :
    (∀ p ∈ s.newMagazines, ∃ t ∈ s.tasks,
        t.completed = true ∧ t.succeeded = true ∧ t.path = p)
    ∧ s.newMagazines.length = countSucceeded s.tasks
    ∧ s.doneSignals ≤ 1
    ∧ ((∀ t ∈ s.tasks, t.completed = true) → s.doneSignals = 1) := by
  have hI := inv_reachable maxR specs h
  refine ⟨hI.magMem, hI.magLen, ?_, ?_⟩
  · rw [hI.signals]
    split <;> omega
  · intro hall
    have hceq : s.completedRequests = s.tasks.length := by
      rw [hI.compEq]
      have hself : s.tasks.filter (fun u => u.completed) = s.tasks :=
        List.filter_eq_self.mpr (fun u hu => by simp [hall u hu])
      simp [countCompleted, hself]
    rw [hI.signals]
    rcases Nat.eq_zero_or_pos maxR with h0 | h1
    · rw [if_pos ⟨hceq, Or.inr (tasks_nil_of_zero_cap hI h0 hceq)⟩]
    · rw [if_pos ⟨hceq, Or.inl h1⟩]

theorem failure_containment_witness :
    (completeTask (completeTask (completeTask (completeTask (completeTask
        (runStart 5 [⟨true, "m1.pdf"⟩, ⟨true, "m2.pdf"⟩, ⟨false, "m3.pdf"⟩,
          ⟨true, "m4.pdf"⟩, ⟨true, "m5.pdf"⟩]) 0) 1) 2) 3) 4).newMagazines
      = ["m1.pdf", "m2.pdf", "m4.pdf", "m5.pdf"]
    ∧ ((∀ t ∈ (completeTask (completeTask (completeTask (completeTask
          (completeTask (runStart 5 [⟨true, "m1.pdf"⟩, ⟨true, "m2.pdf"⟩,
            ⟨false, "m3.pdf"⟩, ⟨true, "m4.pdf"⟩, ⟨true, "m5.pdf"⟩]) 0) 1)
          2) 3) 4).tasks, t.completed = true) →
        (completeTask (completeTask (completeTask (completeTask
          (completeTask (runStart 5 [⟨true, "m1.pdf"⟩, ⟨true, "m2.pdf"⟩,
            ⟨false, "m3.pdf"⟩, ⟨true, "m4.pdf"⟩, ⟨true, "m5.pdf"⟩]) 0) 1)
          2) 3) 4).doneSignals = 1) :=
  ⟨by decide,
    (failure_containment 5 [⟨true, "m1.pdf"⟩, ⟨true, "m2.pdf"⟩,
      ⟨false, "m3.pdf"⟩, ⟨true, "m4.pdf"⟩, ⟨true, "m5.pdf"⟩] _
      (Reachable.step (Reachable.step (Reachable.step (Reachable.step
        (Reachable.step Reachable.start (by decide)) (by decide))
        (by decide)) (by decide)) (by decide))).2.2.2⟩

/-- C5 (empty batch): with no enrolled tasks the very first `startNext`
pass fires the completion signal, so `scrape` resolves immediately with an
empty success list. -/
theorem empty_batch (maxR : Nat) :
    (runStart maxR []).doneSignals = 1
    ∧ (runStart maxR []).newMagazines = []
    ∧ (runStart maxR []).tasks = [] := by
  refine ⟨?_, ?_, ?_⟩ <;> simp [runStart, startNext, initState, scanTasks]

/-! ### Link extraction (`getLinks`) -/

/-- The two fields of Node's legacy `url.parse` result that `getLinks`
reads: `path` (pathname plus query, `null` when absent) and `href`. -/
structure ParsedUrl where
  path : Option String
  href : String
deriving Repr, DecidableEq

/-- Drop everything up to and including the first `://` scheme separator,
or return `none` when there is none. -/
def afterSchemeSep : List Char → Option (List Char)
  | ':' :: '/' :: '/' :: cs => some cs
  | _ :: cs => afterSchemeSep cs
  | [] => none

/-- The suffix starting at the first slash, or `none` when there is no
slash. -/
def findSlash : List Char → Option (List Char)
  | [] => none
  | c :: cs => if c = '/' then some (c :: cs) else findSlash cs

/-- Model of Node's legacy `url.parse`, restricted to the fields used by
`getLinks` and to ordinary URLs: for an absolute URL the `path` starts at
the first slash after the authority (none when the URL has no slash after
the authority); a string without a scheme separator is its own path; the
fragment part never reaches `path`; `href` is the input itself. -/
def urlParse (s : String) : ParsedUrl :=
  let noFrag := s.data.takeWhile (fun c => c ≠ '#')
  match afterSchemeSep noFrag with
  | some rest =>
    match findSlash rest with
    | some pathChars => { path := some (String.mk pathChars), href := s }
    | none => { path := none, href := s }
  | none =>
    { path := if noFrag.isEmpty then none else some (String.mk noFrag)
      href := s }

/-- Model of Node's POSIX `path.basename`: strip trailing slashes, then
keep the part after the last remaining slash. -/
def basenameStr (p : String) : String :=
  let trimmedRev := p.data.reverse.dropWhile (fun c => c = '/')
  String.mk ((trimmedRev.takeWhile (fun c => c ≠ '/')).reverse)

/-- Model of Node's `path.extname`: the suffix of the basename from its
last dot; empty when the basename has no dot, when its only dot is the
leading character, or for the special name `..`. -/
def extname (p : String) : String :=
  let b := (basenameStr p).data
  if b = ['.', '.'] then ""
  else
    let afterRev := b.reverse.takeWhile (fun c => c ≠ '.')
    if afterRev.length = b.length then ""
    else if afterRev.length + 1 = b.length then ""
    else String.mk ('.' :: afterRev.reverse)

def isHexDigit (c : Char) : Bool :=
  c.isDigit || ('a' ≤ c && c ≤ 'f') || ('A' ≤ c && c ≤ 'F')

def hexVal (c : Char) : Nat :=
  if c.isDigit then c.toNat - '0'.toNat
  else if 'a' ≤ c then c.toNat - 'a'.toNat + 10
  else c.toNat - 'A'.toNat + 10

/-- Characters that ECMAScript `decodeURI` leaves percent-encoded. -/
def uriReserved (c : Char) : Bool :=
  c = ';' || c = '/' || c = '?' || c = ':' || c = '@' || c = '&'
    || c = '=' || c = '+' || c = '$' || c = ',' || c = '#'

def decodeURIChars : List Char → List Char
  | '%' :: h1 :: h2 :: rest =>
    if isHexDigit h1 && isHexDigit h2 then
      let c := Char.ofNat (16 * hexVal h1 + hexVal h2)
      if uriReserved c then '%' :: h1 :: h2 :: decodeURIChars rest
      else c :: decodeURIChars rest
    else '%' :: decodeURIChars (h1 :: h2 :: rest)
  | c :: rest => c :: decodeURIChars rest
  | [] => []

/-- Model of ECMAScript `decodeURI` for single-byte percent escapes:
well-formed escapes of unreserved characters are decoded, escapes of
reserved characters stay percent-encoded. -/
def decodeURI (s : String) : String :=
  String.mk (decodeURIChars s.data)

/-- The link record produced by `getLinks` (interface
`ProgrammerMagazineLink` in src/prog.ts). -/
structure ProgrammerMagazineLink where
  id : String
  url : String
  filename : String
deriving Repr, DecidableEq

/-- An anchor element, abstracted to the one property read: `href`. -/
structure MagAnchor where
  href : String
deriving Repr, DecidableEq

/-- A `section-magazine` element, abstracted to its `id` and its list of
`borderless` tables, each a list of anchors. -/
structure MagSection where
  id : String
  tables : List (List MagAnchor)
deriving Repr, DecidableEq

/-- The inner loop body of `getLinks` (src/prog.ts lines 57-73): parse the
anchor's URL, skip it when the parsed path or href is falsy or the path
has no extension, otherwise emit the link with the URI-decoded basename
as filename. -/
def anchorToLink (sectionId : String) (a : MagAnchor) :
    Option ProgrammerMagazineLink :=
  let urlParsed := urlParse a.href
  match urlParsed.path with
  | none => none
  | some p =>
    if p = "" then none
    else if urlParsed.href = "" then none
    else if extname p = "" then none
    else some ⟨sectionId, urlParsed.href, decodeURI (basenameStr p)⟩

/-- The per-section part of `getLinks` (src/prog.ts lines 50-56): skip
sections with a falsy `id` and sections with no `borderless` table,
otherwise process the anchors of the first table only. -/
def sectionLinks (sec : MagSection) : List ProgrammerMagazineLink :=
  if sec.id = "" then []
  else
    match sec.tables with
    | [] => []
    | tbl :: _ => tbl.filterMap (anchorToLink sec.id)

/-- `getLinks` over the whole document. -/
def getLinks (doc : List MagSection) : List ProgrammerMagazineLink :=
  (doc.map sectionLinks).flatten

/-- C6 (filename rule): for an anchor whose parsed URL has a truthy path
and href, a non-empty extension yields a link whose filename is the
URI-decoded basename of the path, and an empty extension silently skips
the anchor. -/
theorem link_extraction_filename (sectionId : String) (a : MagAnchor)
    (p : String) (hp : (urlParse a.href).path = some p) (hp0 : p ≠ "")
    (hh : (urlParse a.href).href ≠ "") :
    (extname p ≠ "" →
      anchorToLink sectionId a
        = some ⟨sectionId, (urlParse a.href).href,
            decodeURI (basenameStr p)⟩)
    ∧ (extname p = "" → anchorToLink sectionId a = none) := by
  constructor
  · intro hext
    simp [anchorToLink, hp, hp0, hh, hext]
  · intro hext
    simp [anchorToLink, hp, hp0, hh, hext]

theorem link_extraction_filename_witness :
    anchorToLink "magazine" ⟨"https://example.com/issue/2020-01.pdf"⟩
      = some ⟨"magazine", "https://example.com/issue/2020-01.pdf",
          "2020-01.pdf"⟩
    ∧ anchorToLink "magazine" ⟨"https://example.com/issue/2020-01"⟩
      = none := by
  constructor
  · have h := (link_extraction_filename "magazine"
      ⟨"https://example.com/issue/2020-01.pdf"⟩ "/issue/2020-01.pdf"
      (by decide) (by decide) (by decide)).1 (by decide)
    exact h.trans (by decide)
  · exact (link_extraction_filename "magazine"
      ⟨"https://example.com/issue/2020-01"⟩ "/issue/2020-01"
      (by decide) (by decide) (by decide)).2 (by decide)

/-- C8 (first sub-table only): a section with an empty identifier
contributes nothing to `getLinks`, and a section's output depends only on
its first table — anchors in later tables are never emitted. -/
theorem first_subtable_only (pre post : List MagSection) (sec : MagSection)
    (sid : String) (tbl : List MagAnchor) (rest : List (List MagAnchor)) :
    (sec.id = "" → getLinks (pre ++ sec :: post) = getLinks (pre ++ post))
    ∧ getLinks (pre ++ MagSection.mk sid (tbl :: rest) :: post)
        = getLinks (pre ++ MagSection.mk sid [tbl] :: post) := by
  constructor
  · intro hid
    simp [getLinks, sectionLinks, hid]
  · simp [getLinks, sectionLinks]

theorem first_subtable_only_witness :
    (getLinks ([] ++ MagSection.mk "" [[⟨"https://e.com/x.pdf"⟩]] :: [])
      = getLinks ([] ++ []))
    ∧ getLinks ([] ++ MagSection.mk "sec"
          ([⟨"https://e.com/a.pdf"⟩] :: [[⟨"https://e.com/b.pdf"⟩]]) :: [])
      = getLinks ([] ++ MagSection.mk "sec" [[⟨"https://e.com/a.pdf"⟩]]
          :: []) :=
  ⟨(first_subtable_only [] [] (MagSection.mk "" [[⟨"https://e.com/x.pdf"⟩]])
      "sec" [⟨"https://e.com/a.pdf"⟩] [[⟨"https://e.com/b.pdf"⟩]]).1 rfl,
    (first_subtable_only [] [] (MagSection.mk "" [[⟨"https://e.com/x.pdf"⟩]])
      "sec" [⟨"https://e.com/a.pdf"⟩] [[⟨"https://e.com/b.pdf"⟩]]).2⟩

/-! ### Enrollment loop of `scrape` (existing-file skip) -/

/-- Model of Node's `path.join` for the two-segment calls made by
`scrape`, restricted to ordinary non-empty segments. -/
def pathJoin (a b : String) : String :=
  if a = "" then b else if b = "" then a else a ++ "/" ++ b

/-- The destination folder computed in the enrollment loop of `scrape`
(src/prog.ts lines 120-124): the positional directory argument, or
`<dirname>/programista` when it is empty, joined with the link's section
id. -/
def destFolder (dirname directory : String)
    (link : ProgrammerMagazineLink) : String :=
  let baseFolder :=
    if directory = "" then pathJoin dirname "programista" else directory
  pathJoin baseFolder link.id

/-- The destination file path of a link (src/prog.ts line 125). -/
def destFilename (dirname directory : String)
    (link : ProgrammerMagazineLink) : String :=
  pathJoin (destFolder dirname directory link) link.filename

/-- One entry pushed onto `requestsList`, identified by the data captured
by `scraperFactory`. -/
structure EnrolledRequest where
  url : String
  folder : String
  filename : String
deriving Repr, DecidableEq

/-- The enrollment loop of `scrape` (src/prog.ts lines 119-140): for each
link compute the destination; when `skipExisting` is set and the
destination already exists (`fs.access` succeeds), skip the link entirely;
otherwise push a request built by `scraperFactory`.  The filesystem
existence probe is the Boolean oracle `fsExists`. -/
def enrollRequests (dirname directory : String) (fsExists : String → Bool)
    (skipExisting : Bool) (links : List ProgrammerMagazineLink) :
    List EnrolledRequest :=
  links.filterMap (fun link =>
    let folder := destFolder dirname directory link
    let filename := pathJoin folder link.filename
    if skipExisting && fsExists filename then none
    else some ⟨link.url, folder, filename⟩)

/-- C7 (existing-file skip): a link whose destination path exists is
excluded from the batch entirely when `skipExisting` is true — no enrolled
request carries that destination — while with `skipExisting` false the
link is enrolled regardless. -/
theorem existing_file_skip (dirname directory : String)
    (fsExists : String → Bool) (links : List ProgrammerMagazineLink)
    (link : ProgrammerMagazineLink) (hmem : link ∈ links)
    (hex : fsExists (destFilename dirname directory link) = true) :
    (∀ e ∈ enrollRequests dirname directory fsExists true links,
      e.filename ≠ destFilename dirname directory link)
    ∧ EnrolledRequest.mk link.url (destFolder dirname directory link)
        (destFilename dirname directory link)
      ∈ enrollRequests dirname directory fsExists false links := by
  constructor
  · intro e he
    obtain ⟨l, hl, hle⟩ := List.mem_filterMap.mp he
    by_cases hx : fsExists (pathJoin (destFolder dirname directory l)
        l.filename) = true
    · simp only [Bool.true_and, hx, if_pos] at hle
      cases hle
    · simp only [Bool.true_and, hx, if_neg, Bool.not_eq_true] at hle
      have he2 : e.filename
          = pathJoin (destFolder dirname directory l) l.filename := by
        rw [← Option.some_inj.mp hle]
      intro hcontra
      apply hx
      rw [he2] at hcontra
      rw [hcontra]
      exact hex
  · apply List.mem_filterMap.mpr
    refine ⟨link, hmem, ?_⟩
    simp [destFilename]

theorem existing_file_skip_witness :
    (∀ e ∈ enrollRequests "/app" "/data"
        (fun s => s == "/data/prog/2020-01.pdf") true
        [⟨"prog", "https://e.com/2020-01.pdf", "2020-01.pdf"⟩],
      e.filename ≠ destFilename "/app" "/data"
        ⟨"prog", "https://e.com/2020-01.pdf", "2020-01.pdf"⟩)
    ∧ EnrolledRequest.mk "https://e.com/2020-01.pdf"
        (destFolder "/app" "/data"
          ⟨"prog", "https://e.com/2020-01.pdf", "2020-01.pdf"⟩)
        (destFilename "/app" "/data"
          ⟨"prog", "https://e.com/2020-01.pdf", "2020-01.pdf"⟩)
      ∈ enrollRequests "/app" "/data"
        (fun s => s == "/data/prog/2020-01.pdf") false
        [⟨"prog", "https://e.com/2020-01.pdf", "2020-01.pdf"⟩] :=
  existing_file_skip "/app" "/data" (fun s => s == "/data/prog/2020-01.pdf")
    [⟨"prog", "https://e.com/2020-01.pdf", "2020-01.pdf"⟩]
    ⟨"prog", "https://e.com/2020-01.pdf", "2020-01.pdf"⟩
    (by decide) (by decide)

/-! ### The notifier `uploadNewMagazines` -/

/-- Model of the JavaScript test `m.match(/.+\.pdf$/) !== null`: the
string ends in `.pdf`, with at least one character before it that is not a
newline (`.` does not match newlines and `$` only matches at the end). -/
def matchPdf (s : String) : Bool :=
  let cs := s.data
  decide (5 ≤ cs.length) && (cs.drop (cs.length - 4) == ".pdf".data)
    && !(cs.getD (cs.length - 5) ' ' == '\n')

/-- The sequential upload loop of `uploadNewMagazines` (src/prog.ts lines
247-257): upload each file in order; an upload failure (a rejected
promise) is not caught, so it stops the loop.  The per-file outcome is the
Boolean oracle `uploadOk`; the result is the list of files uploaded and
the file whose failure aborted the loop, if any. -/
def uploadLoop (uploadOk : String → Bool) :
    List String → List String × Option String
  | [] => ([], none)
  | f :: fs =>
    if uploadOk f then
      let res := uploadLoop uploadOk fs
      (f :: res.1, res.2)
    else ([], some f)

/-- `uploadNewMagazines` (src/prog.ts lines 238-258): filter the paths to
those matching `/.+\.pdf$/` (the early return on an empty filtered list
yields the same result as the loop), then upload them sequentially. -/
def uploadNewMagazines (uploadOk : String → Bool)
    (magazines : List String) : List String × Option String :=
  uploadLoop uploadOk (magazines.filter matchPdf)

/-- C9 (notifier filtering and order): when every upload succeeds,
`uploadNewMagazines` forwards exactly the paths matching the `.pdf`
policy, one upload per file, in input order; in particular
`["a.pdf", "b.epub", "c.pdf"]` forwards exactly `a.pdf` and `c.pdf`. -/
theorem notifier_filtering (magazines : List String) :
    uploadNewMagazines (fun _ => true) magazines
      = (magazines.filter matchPdf, none)
    ∧ uploadNewMagazines (fun _ => true) ["a.pdf", "b.epub", "c.pdf"]
      = (["a.pdf", "c.pdf"], none) := by
  constructor
  · unfold uploadNewMagazines
    generalize magazines.filter matchPdf = l
    induction l with
    | nil => rfl
    | cons f fs ih => simp [uploadLoop, ih]
  · decide

/-- C10 (notifier failure behavior): when some filtered file's upload
fails, the error propagates out of `uploadNewMagazines` and none of the
filtered files after the failing one are uploaded — only the successful
prefix before it is. -/
theorem notifier_failure (uploadOk : String → Bool)
    (magazines : List String) (done rest : List String) (f : String)
    (hsplit : magazines.filter matchPdf = done ++ f :: rest)
    (hdone : ∀ g ∈ done, uploadOk g = true) (hf : uploadOk f = false) :
    uploadNewMagazines uploadOk magazines = (done, some f) := by
  unfold uploadNewMagazines
  rw [hsplit]
  clear hsplit
  induction done with
  | nil => simp [uploadLoop, hf]
  | cons g gs ih =>
    have hg : uploadOk g = true := hdone g (List.mem_cons_self _ _)
    have hrec := ih (fun x hx => hdone x (List.mem_cons_of_mem _ hx))
    simp [uploadLoop, hg, hrec]

theorem notifier_failure_witness :
    uploadNewMagazines (fun s => !(s == "b.pdf"))
      ["a.pdf", "x.epub", "b.pdf", "c.pdf"] = (["a.pdf"], some "b.pdf") :=
  notifier_failure (fun s => !(s == "b.pdf"))
    ["a.pdf", "x.epub", "b.pdf", "c.pdf"] ["a.pdf"] ["c.pdf"] "b.pdf"
    (by decide) (by decide) (by decide)

end ProgMag
